import Mathlib

/-!
Verification of the binary cursor engine (walkerbit.c / walker.c /
filewalkerbit.c / utilities.c) against its natural-language specification.

The C sources are shallowly embedded: buffers are lists of naturals (each
byte < 256), cursor structs become Lean structures, and the C functions
become pure Lean functions returning the new cursor state.  Where the C
raises a Python exception before mutating the context, the model returns
`none` together with the untouched context.  Unsigned long / long are
modelled as 32-bit quantities (the source's own `0xFFFFFFFF` error checks
show it was written for 32-bit longs); the explicit casts between signed
and unsigned longs are modelled with `% 2^32`.  Bit offsets and byte
counts that never interact with signedness are modelled as unbounded
naturals.
-/

/-- Table of high-bit masks, from the `highMasks` constant array shared by
walkerbit.c, walker.c and filewalkerbit.c: `highMasks[i]` keeps the top
`8 - i` bits of a byte. -/
def highMasks : List Nat := [0xFF, 0xFE, 0xFC, 0xF8, 0xF0, 0xE0, 0xC0, 0x80]

/-- Modulus of the 32-bit unsigned long arithmetic used by the source. -/
def ULMOD : Nat := 2 ^ 32

/-- Context of a string bit walker, from `struct WKB_Context` in
walkerbit.c.  The `liveBuffer` is the byte list `data`; every offset is in
bits. -/
structure WKB_Context where
  data : List Nat
  origBitStart : Nat
  currBitOffset : Nat
  bitLimit : Nat
  isBigEndian : Bool
deriving Repr, DecidableEq

/-- Reading a byte of the backing buffer (out-of-range reads never happen
on the paths proved below; `getD` supplies 0 merely to keep the function
total). -/
def byteAt (data : List Nat) (i : Nat) : Nat := data.getD i 0

/-- Byte-boundary copy loop of `BytesFromBits` (walkerbit.c, the
`!currPhase` branch): whole bytes are copied, then 1-7 remaining bits are
masked with `highMasks[8 - bitCount]`. -/
def copyAligned (data : List Nat) (fromIdx bitCount : Nat) : List Nat :=
  if 8 ≤ bitCount then
    byteAt data fromIdx % 256 :: copyAligned data (fromIdx + 1) (bitCount - 8)
  else if bitCount = 0 then []
  else [(byteAt data fromIdx &&& highMasks.getD (8 - bitCount) 0) % 256]
termination_by bitCount

/-- Nonzero-phase copy loop of `BytesFromBits` (walkerbit.c, the
`else` branch): each output byte is `(*from << currPhase) |
(*fromNext >> counterPhase)` truncated to a byte, and the final partial
byte has the two sub-cases of the source. -/
def copyShifted (data : List Nat) (fromIdx currPhase bitCount : Nat) : List Nat :=
  if 8 ≤ bitCount then
    ((byteAt data fromIdx <<< currPhase) ||| (byteAt data (fromIdx + 1) >>> (8 - currPhase))) % 256
      :: copyShifted data (fromIdx + 1) currPhase (bitCount - 8)
  else if bitCount = 0 then []
  else if bitCount ≤ 8 - currPhase then
    [((byteAt data fromIdx <<< currPhase) &&& highMasks.getD (8 - bitCount) 0) % 256]
  else
    [((byteAt data fromIdx <<< currPhase) |||
      ((byteAt data (fromIdx + 1) &&& highMasks.getD (8 - (bitCount - (8 - currPhase))) 0)
        >>> (8 - currPhase))) % 256]
termination_by bitCount

/-- Model of `BytesFromBits` (walkerbit.c lines 126-187): checks
`currBitOffset + bitCount <= bitLimit` — a 32-bit unsigned long sum, so it
wraps mod `2^32` — raising IndexError, i.e. `none`, with the context
untouched when it fails; otherwise copies `bitCount` bits starting at byte
`currBitOffset >> 3`, phase `currBitOffset & 7`, and advances
`currBitOffset` by `bitCount` (the same wrapped sum). -/
def BytesFromBits (ctx : WKB_Context) (bitCount : Nat) :
    Option (List Nat) × WKB_Context :=
  if (ctx.currBitOffset + bitCount) % ULMOD ≤ ctx.bitLimit then
    let fromIdx := ctx.currBitOffset >>> 3
    let currPhase := ctx.currBitOffset &&& 7
    let ctx' := { ctx with currBitOffset := (ctx.currBitOffset + bitCount) % ULMOD }
    if currPhase = 0 then
      (some (copyAligned ctx.data fromIdx bitCount), ctx')
    else
      (some (copyShifted ctx.data fromIdx currPhase bitCount), ctx')
  else
    (none, ctx)

/-- Reference bit slice: bit number `i` of the byte stream `data`, counting
from the most significant bit of byte 0 (bit 0 is the top bit of the first
byte). -/
def bitAt (data : List Nat) (i : Nat) : Bool :=
  (byteAt data (i / 8)).testBit (7 - i % 8)

/-- Bit number `j` of an extracted buffer, same big-endian bit numbering as
`bitAt`. -/
def bufBit (buf : List Nat) (j : Nat) : Bool :=
  (buf.getD (j / 8) 0).testBit (7 - j % 8)

/-- Model of `wkb_UnpackBits` (walkerbit.c lines 1303-1352): for a nonzero
bit count the buffer comes from `BytesFromBits`; for a zero bit count an
empty byte string is returned without touching the context at all. -/
def wkb_UnpackBits (ctx : WKB_Context) (bitCount : Nat) :
    Option (List Nat) × WKB_Context :=
  if bitCount ≠ 0 then
    match BytesFromBits ctx bitCount with
    | (some b, ctx') => (some b, ctx')
    | (none, ctx') => (none, ctx')
  else
    (some [], ctx)

/-- Reinterpretation of an integer as a 32-bit signed long (two's
complement), used to model the C signed additions and casts. -/
def toSigned32 (n : Int) : Int := (n + 2 ^ 31) % 2 ^ 32 - 2 ^ 31

/-- Model of `wkb_SetOffset` (walkerbit.c lines 1110-1140): the requested
signed offset is resolved against `currBitOffset` (relative) or
`origBitStart` (absolute) in 32-bit signed arithmetic, cast to unsigned,
checked against the limit unless `okToExceed`, and committed; on failure
the context is returned untouched (the C raises before any write). -/
def wkb_SetOffset (ctx : WKB_Context) (signedBitOffset : Int)
    (relative okToExceed : Bool) : Option WKB_Context :=
  let s : Int := toSigned32 (signedBitOffset +
    (if relative then (ctx.currBitOffset : Int) else (ctx.origBitStart : Int)))
  let bitOffset : Nat := (s % (ULMOD : Int)).toNat
  if okToExceed ∨ (bitOffset < ctx.bitLimit ∧ 0 ≤ s) then
    some { ctx with currBitOffset := bitOffset }
  else
    none

/-- Model of `wkb_Skip` (walkerbit.c lines 1142-1170): the signed skip
amount is cast to unsigned long and added to `currBitOffset` (32-bit
wraparound); if the result exceeds `bitLimit` it is clamped to 0 for a
negative skip and to `bitLimit` otherwise.  No error path exists. -/
def wkb_Skip (ctx : WKB_Context) (bitsToSkip : Int) : WKB_Context :=
  let newOffset : Nat := (((ctx.currBitOffset : Int) + bitsToSkip) % (ULMOD : Int)).toNat
  { ctx with currBitOffset :=
      if ctx.bitLimit < newOffset then
        (if bitsToSkip < 0 then 0 else ctx.bitLimit)
      else newOffset }

/-- Size of `Py_ssize_t` used by the (claim-irrelevant) `P` format code. -/
def sizeofPySsizeT : Nat := 8

/-- Test `c >= '0' && c <= '9'` from the format scanners. -/
def isDigitChar (c : Char) : Bool := decide ('0' ≤ c) && decide (c ≤ '9')

/-- Value `c - '0'` of a digit character. -/
def digitVal (c : Char) : Nat := c.toNat - '0'.toNat

/-- Accumulator loop of `FormatByteSize` (walkerbit.c lines 197-283; the
identical function appears in walker.c, and `CalcSizeFromFormat` in
utilities.c computes the same totals): digits accumulate into `rep`; a
code character consumes `rep` (defaulting to 1 when no digits preceded),
adds its size contribution and item contribution, and resets `rep`;
unrecognized characters contribute nothing but still reset `rep`.  All
accumulators are 32-bit unsigned longs in the C, so every addition and
multiplication wraps mod `2^32`; the `x` code never touches the item
count. -/
def FormatByteSizeAux : List Char → Nat → Nat → Nat → Nat × Nat
  | [], _rep, size, items => (size, items)
  | c :: rest, rep, size, items =>
    if isDigitChar c then
      FormatByteSizeAux rest ((10 * rep + digitVal c) % ULMOD) size items
    else
      let r := if rep = 0 then 1 else rep
      if c = 'B' ∨ c = 'b' ∨ c = 'c' ∨ c = 'p' ∨ c = 's' ∨ c = 'x' then
        FormatByteSizeAux rest 0 ((size + r) % ULMOD)
          (if c = 's' ∨ c = 'p' then (items + 1) % ULMOD
           else if c = 'x' then items
           else (items + r) % ULMOD)
      else if c = 'H' ∨ c = 'h' then
        FormatByteSizeAux rest 0 ((size + (2 * r) % ULMOD) % ULMOD) ((items + r) % ULMOD)
      else if c = 'T' ∨ c = 't' then
        FormatByteSizeAux rest 0 ((size + (3 * r) % ULMOD) % ULMOD) ((items + r) % ULMOD)
      else if c = 'f' ∨ c = 'I' ∨ c = 'i' ∨ c = 'L' ∨ c = 'l' then
        FormatByteSizeAux rest 0 ((size + (4 * r) % ULMOD) % ULMOD) ((items + r) % ULMOD)
      else if c = 'd' ∨ c = 'Q' ∨ c = 'q' then
        FormatByteSizeAux rest 0 ((size + (8 * r) % ULMOD) % ULMOD) ((items + r) % ULMOD)
      else if c = 'P' then
        FormatByteSizeAux rest 0
          ((size + (sizeofPySsizeT * r) % ULMOD) % ULMOD) ((items + r) % ULMOD)
      else
        FormatByteSizeAux rest 0 size items

/-- Model of `FormatByteSize`: total byte size and logical item count of a
format string. -/
def FormatByteSize (fmt : List Char) : Nat × Nat := FormatByteSizeAux fmt 0 0 0

/-- Model of the `Q`/`q` case of `FormatProcess` (walkerbit.c lines
509-580): two 32-bit halves are assembled byte by byte in the requested
endianness with shifts and ors, combined as `(high << 32) + low` in
arbitrary-precision Python integers, and for the signed code `q` with
`highPart > 0x7FFFFFFF` corrected by subtracting `1 << 64`. -/
def FormatProcess_Q (b : List Nat) (isBigEndian wantSigned : Bool) : Int :=
  let highPart : Nat :=
    if isBigEndian then
      ((byteAt b 0 <<< 24) ||| (byteAt b 1 <<< 16)) ||| (byteAt b 2 <<< 8) ||| byteAt b 3
    else
      ((byteAt b 4 ||| (byteAt b 5 <<< 8)) ||| (byteAt b 6 <<< 16)) ||| (byteAt b 7 <<< 24)
  let lowPart : Nat :=
    if isBigEndian then
      ((byteAt b 4 <<< 24) ||| (byteAt b 5 <<< 16)) ||| (byteAt b 6 <<< 8) ||| byteAt b 7
    else
      ((byteAt b 0 ||| (byteAt b 1 <<< 8)) ||| (byteAt b 2 <<< 16)) ||| (byteAt b 3 <<< 24)
  let combined : Int := (highPart : Int) * 2 ^ 32 + (lowPart : Int)
  if wantSigned ∧ 0x7FFFFFFF < highPart then combined - 2 ^ 64 else combined

/-- Big-endian value of a byte list (reference, not from the source). -/
def beBytesVal (l : List Nat) : Nat := l.foldl (fun acc b => 256 * acc + b) 0

/-- Decode loop of `wkb_UnpackRest` (walkerbit.c lines 1550-1608): each of
the `groupCount` repetitions extracts `formatBitSize` bits via
`BytesFromBits` (each extracted group is then fed to `FormatProcess`,
which only converts the buffer to values and does not move the cursor, so
the model keeps the raw group buffers). -/
def unpackRestLoop (formatBitSize : Nat) :
    Nat → WKB_Context → Option (List (List Nat)) × WKB_Context
  | 0, ctx => (some [], ctx)
  | groupCount + 1, ctx =>
    match BytesFromBits ctx formatBitSize with
    | (some b, ctx') =>
      match unpackRestLoop formatBitSize groupCount ctx' with
      | (some gs, ctx'') => (some (b :: gs), ctx'')
      | (none, ctx'') => (none, ctx'')
    | (none, ctx') => (none, ctx')

/-- Model of `wkb_UnpackRest` (walkerbit.c lines 1511-1626): with
`strict` set, a remaining bit count that is not an exact multiple of the
format's bit size raises (ValueError in the source) with the context
untouched; otherwise `remainingBits / formatBitSize` full repetitions are
decoded and leftover bits are ignored. -/
def wkb_UnpackRest (ctx : WKB_Context) (fmt : List Char) (strict : Bool) :
    Option (List (List Nat)) × WKB_Context :=
  let formatBitSize := ((FormatByteSize fmt).1 <<< 3) % ULMOD
  let remainingBits := ctx.bitLimit - ctx.currBitOffset
  if strict ∧ remainingBits % formatBitSize ≠ 0 then (none, ctx)
  else unpackRestLoop formatBitSize (remainingBits / formatBitSize) ctx

/-- Per-cursor fields of `struct FWKB_Context` (filewalkerbit.c); the file
handle and reference count live in the shared part. -/
structure FWKB_Client where
  fileBitSize : Nat
  origBitStart : Nat
  currBitOffset : Nat
  bitLimit : Nat
  isBigEndian : Bool
deriving Repr, DecidableEq

/-- Shared backing resource of a file bit walker: the malloc'd reference
count all branched contexts point at, and whether the FILE is still
open. -/
structure FWKB_Shared where
  refCount : Nat
  fileOpen : Bool
deriving Repr, DecidableEq

/-- Model of `fwkb_SubWalkerSetup` (filewalkerbit.c lines 1195-1261): the
child offset is resolved like a seek (unless `anchor`), the child limit is
derived from `newPyLimit` (inheriting, clamping to the file size when
anchored, to the parent limit otherwise), the offset is clamped to the
limit, a fresh context sharing file and refCount is built, and the shared
reference count is incremented; the parent context is only read. -/
def fwkb_SubWalkerSetup (ctx : FWKB_Client) (sh : FWKB_Shared) (bitOffset : Nat)
    (relative anchor : Bool) (newPyLimit : Option Nat) : FWKB_Client × FWKB_Shared :=
  let bitOffset :=
    if ¬ anchor then
      bitOffset + (if relative then ctx.currBitOffset else ctx.origBitStart)
    else bitOffset
  let newBitLimit :=
    match newPyLimit with
    | none => ctx.bitLimit
    | some v =>
      if anchor then
        let v := if v = 0 then ctx.fileBitSize else v
        if ctx.fileBitSize < v then ctx.fileBitSize else v
      else
        let v := if relative then v + bitOffset else v
        if ctx.bitLimit < v then ctx.bitLimit else v
  let bitOffset := if newBitLimit < bitOffset then newBitLimit else bitOffset
  ({ fileBitSize := ctx.fileBitSize, origBitStart := bitOffset,
     currBitOffset := bitOffset, bitLimit := newBitLimit,
     isBigEndian := ctx.isBigEndian },
   { sh with refCount := (sh.refCount + 1) % ULMOD })

/-- Model of `FreeContext` (filewalkerbit.c lines 643-656): the shared
reference count is decremented (unsigned 32-bit arithmetic), and when it
reaches zero the file is closed and the count freed. -/
def FreeContext (sh : FWKB_Shared) : FWKB_Shared :=
  let newCount := (sh.refCount + (ULMOD - 1)) % ULMOD
  { refCount := newCount, fileOpen := if newCount = 0 then false else sh.fileOpen }

/-- Length the C `strlen` reports for a byte string laid out in a
NUL-terminated buffer: the number of bytes before the first zero. -/
def strlenBytes (s : List Nat) : Nat := (s.takeWhile (fun b => b != 0)).length

/-- Model of the `p` (Pascal string) case of `ut_Pack` (utilities.c lines
641-687): the string length is measured with `strlen`, truncated to
`repeat - 1` when it does not fit, the stored length byte is capped at
255, and the remaining space is zero-filled. -/
def ut_Pack_pField (s : List Nat) (rep : Nat) : List Nat :=
  let cStringLen := strlenBytes s
  let cStringLen := if rep ≤ cStringLen then rep - 1 else cStringLen
  let leftOvers := rep - 1 - cStringLen
  (if 255 < cStringLen then 255 else cStringLen)
    :: (s.take cStringLen ++ List.replicate leftOvers 0)

/-- Model of the `p` case of `FormatProcess` (walkerbit.c lines 592-598):
the first byte is the length, the following that many bytes are the
string. -/
def FormatProcess_pField (field : List Nat) : List Nat :=
  let actualLength := byteAt field 0
  (field.drop 1).take actualLength

/-- Specification-side token of the format mini-language: an optional run
of decimal digit characters followed by one type-code character. -/
structure FmtToken where
  repDigits : List Char
  code : Char

/-- Decimal value of a token's digit run. -/
def tokRepeatRaw (t : FmtToken) : Nat :=
  t.repDigits.foldl (fun a c => 10 * a + digitVal c) 0

/-- Repeat count of a token, defaulting to 1 when the digit run is absent
or denotes zero. -/
def tokRepeat (t : FmtToken) : Nat :=
  if tokRepeatRaw t = 0 then 1 else tokRepeatRaw t

/-- Byte size of one unit of a type code, per the claim's table. -/
def codeByteSize (c : Char) : Nat :=
  if c = 'B' ∨ c = 'b' ∨ c = 'c' ∨ c = 'p' ∨ c = 's' ∨ c = 'x' then 1
  else if c = 'H' ∨ c = 'h' then 2
  else if c = 'T' ∨ c = 't' then 3
  else if c = 'f' ∨ c = 'I' ∨ c = 'i' ∨ c = 'L' ∨ c = 'l' then 4
  else 8

/-- Byte size contributed by a whole token. -/
def tokSize (t : FmtToken) : Nat := codeByteSize t.code * tokRepeat t

/-- Item count contributed by a token: `p` and `s` always one item, `x`
none, numeric codes the repeat count. -/
def tokItems (t : FmtToken) : Nat :=
  if t.code = 'p' ∨ t.code = 's' then 1
  else if t.code = 'x' then 0
  else tokRepeat t

/-- Type codes enumerated by the claim. -/
def claimCodes : List Char :=
  ['B', 'b', 'c', 'p', 's', 'x', 'H', 'h', 'T', 't',
   'I', 'i', 'L', 'l', 'f', 'd', 'Q', 'q']

/-- Characters of one token. -/
def renderToken (t : FmtToken) : List Char := t.repDigits ++ [t.code]

/-- Characters of a whole format string built from tokens. -/
def renderFormat (ts : List FmtToken) : List Char := (ts.map renderToken).flatten

/-- Bytes of a well-formed backing buffer are below 256, and so is the
out-of-range default. -/
theorem byteAt_lt (data : List Nat) (hdata : ∀ b ∈ data, b < 256) (i : Nat) :
    byteAt data i < 256 := by
  unfold byteAt
  rw [List.getD_eq_getElem?_getD]
  rcases h : data[i]? with _ | b
  · simp
  · have hb : b ∈ data := List.getElem?_mem h
    simpa using hdata b hb

/-- Bit `i` of the mask table entry `highMasks[k]` is set exactly when
`k ≤ i` (bits counted from the least significant end). -/
theorem highMasks_testBit (k i : Nat) (hk : k < 8) (hi : i < 8) :
    (highMasks.getD k 0).testBit i = decide (k ≤ i) := by
  interval_cases k <;> interval_cases i <;> decide

/-- Reading a bit of a consed buffer: the first 8 bit positions come from
the head byte, the rest from the tail. -/
theorem bufBit_cons (a : Nat) (l : List Nat) (j : Nat) :
    bufBit (a :: l) j = if j < 8 then a.testBit (7 - j) else bufBit l (j - 8) := by
  unfold bufBit
  rcases Nat.lt_or_ge j 8 with h | h
  · rw [Nat.div_eq_of_lt h, Nat.mod_eq_of_lt h]
    simp [h]
  · have h1 : j / 8 = (j - 8) / 8 + 1 := by omega
    have h2 : j % 8 = (j - 8) % 8 := by omega
    rw [h1, h2, List.getD_cons_succ]
    simp [Nat.not_lt.mpr h]

/-- Splitting a stream bit address at a byte boundary: bit `8*f + p + j`
lives in byte `f` when `p + j < 8` and in byte `f + 1` otherwise. -/
theorem bitAt_split (data : List Nat) (f p j : Nat) (hp : p < 8) (hj : j < 8) :
    bitAt data (8 * f + p + j) =
      if p + j < 8 then (byteAt data f).testBit (7 - (p + j))
      else (byteAt data (f + 1)).testBit (15 - (p + j)) := by
  unfold bitAt
  rcases Nat.lt_or_ge (p + j) 8 with h | h
  · have e1 : (8 * f + p + j) / 8 = f := by omega
    have e2 : (8 * f + p + j) % 8 = p + j := by omega
    rw [e1, e2, if_pos h]
  · have e1 : (8 * f + p + j) / 8 = f + 1 := by omega
    have e2 : (8 * f + p + j) % 8 = p + j - 8 := by omega
    have e3 : 7 - (p + j - 8) = 15 - (p + j) := by omega
    rw [e1, e2, e3, if_neg (Nat.not_lt.mpr h)]

/-- Aligned special case of `bitAt_split`. -/
theorem bitAt_aligned (data : List Nat) (f j : Nat) (hj : j < 8) :
    bitAt data (8 * f + j) = (byteAt data f).testBit (7 - j) := by
  have h := bitAt_split data f 0 j (by omega) hj
  simpa [hj] using h

/-- Length of the aligned copy loop's output: one byte per full 8 bits
plus one for a trailing partial byte. -/
theorem copyAligned_length (data : List Nat) :
    ∀ n fromIdx, (copyAligned data fromIdx n).length = (n + 7) / 8 := by
  intro n
  induction n using Nat.strong_induction_on with
  | _ n ih =>
    intro fromIdx
    unfold copyAligned
    by_cases h8 : 8 ≤ n
    · rw [if_pos h8]
      simp only [List.length_cons]
      rw [ih (n - 8) (by omega) (fromIdx + 1)]
      omega
    · rw [if_neg h8]
      by_cases h0 : n = 0
      · rw [if_pos h0, h0]
        rfl
      · rw [if_neg h0]
        simp only [List.length_singleton]
        omega

/-- Bit-level contents of the aligned copy loop: output bit `j` equals
stream bit `8 * fromIdx + j` for `j` below the bit count and 0 beyond
it. -/
theorem copyAligned_bits (data : List Nat) (hdata : ∀ b ∈ data, b < 256) :
    ∀ n fromIdx j, j < 8 * ((n + 7) / 8) →
      bufBit (copyAligned data fromIdx n) j =
        (if j < n then bitAt data (8 * fromIdx + j) else false) := by
  intro n
  induction n using Nat.strong_induction_on with
  | _ n ih =>
    intro fromIdx j hj
    unfold copyAligned
    by_cases h8 : 8 ≤ n
    · rw [if_pos h8, bufBit_cons]
      by_cases hj8 : j < 8
      · rw [if_pos hj8, Nat.mod_eq_of_lt (byteAt_lt data hdata fromIdx),
          if_pos (by omega : j < n), bitAt_aligned data fromIdx j hj8]
      · rw [if_neg hj8, ih (n - 8) (by omega) (fromIdx + 1) (j - 8) (by omega)]
        have e : 8 * (fromIdx + 1) + (j - 8) = 8 * fromIdx + j := by omega
        rw [e]
        by_cases hjn : j < n
        · rw [if_pos (by omega : j - 8 < n - 8), if_pos hjn]
        · rw [if_neg (by omega : ¬ (j - 8 < n - 8)), if_neg hjn]
    · by_cases h0 : n = 0
      · exact absurd hj (by omega)
      · rw [if_neg h8, if_neg h0, bufBit_cons, if_pos (by omega : j < 8)]
        have hj8 : j < 8 := by omega
        have hlt : byteAt data fromIdx &&& highMasks.getD (8 - n) 0 < 256 :=
          lt_of_le_of_lt Nat.and_le_left (byteAt_lt data hdata fromIdx)
        rw [Nat.mod_eq_of_lt hlt, Nat.testBit_and,
          highMasks_testBit (8 - n) (7 - j) (by omega) (by omega)]
        by_cases hjn : j < n
        · rw [if_pos hjn, bitAt_aligned data fromIdx j hj8]
          have hmk : 8 - n ≤ 7 - j := by omega
          simp [hmk]
        · rw [if_neg hjn]
          have hmk : ¬ (8 - n ≤ 7 - j) := by omega
          simp [hmk]

/-- Bit `7 - j` of a full shifted output byte
`((a << p) | (b >> (8 - p))) mod 256` comes from `a` when `p + j < 8` and
from `b` otherwise. -/
theorem shiftedFull_testBit (a b p : Nat) (hb : b < 256)
    (hp8 : p < 8) (j : Nat) (hj : j < 8) :
    (((a <<< p) ||| (b >>> (8 - p))) % 256).testBit (7 - j) =
      (if p + j < 8 then a.testBit (7 - (p + j)) else b.testBit (15 - (p + j))) := by
  have h256 : (256 : Nat) = 2 ^ 8 := by norm_num
  rw [h256, Nat.testBit_mod_two_pow]
  simp only [Nat.testBit_or, Nat.testBit_shiftLeft, Nat.testBit_shiftRight]
  have h7 : 7 - j < 8 := by omega
  rcases Nat.lt_or_ge (p + j) 8 with hq | hq
  · have hple : p ≤ 7 - j := by omega
    have e1 : 7 - j - p = 7 - (p + j) := by omega
    have hbf : b.testBit (8 - p + (7 - j)) = false := by
      apply Nat.testBit_lt_two_pow
      calc b < 2 ^ 8 := hb
        _ ≤ 2 ^ (8 - p + (7 - j)) := Nat.pow_le_pow_right (by norm_num) (by omega)
    rw [e1, hbf, if_pos hq]
    simp [h7, hple]
  · have hpgt : ¬ (p ≤ 7 - j) := by omega
    have e2 : 8 - p + (7 - j) = 15 - (p + j) := by omega
    rw [e2, if_neg (Nat.not_lt.mpr hq)]
    simp [h7, hpgt]

/-- Bit `7 - j` of the final shifted byte when the leftover bits fit in
the current source byte: masked shift of `a` only. -/
theorem shiftedPartialA_testBit (a p n : Nat)
    (hp8 : p < 8) (hn1 : 1 ≤ n) (hle : n ≤ 8 - p) (j : Nat) (hj : j < 8) :
    (((a <<< p) &&& highMasks.getD (8 - n) 0) % 256).testBit (7 - j) =
      (if j < n then a.testBit (7 - (p + j)) else false) := by
  have h256 : (256 : Nat) = 2 ^ 8 := by norm_num
  rw [h256, Nat.testBit_mod_two_pow]
  simp only [Nat.testBit_and, Nat.testBit_shiftLeft]
  have h7 : 7 - j < 8 := by omega
  rw [highMasks_testBit (8 - n) (7 - j) (by omega) h7]
  by_cases hjn : j < n
  · have hple : p ≤ 7 - j := by omega
    have e1 : 7 - j - p = 7 - (p + j) := by omega
    have hmk : 8 - n ≤ 7 - j := by omega
    rw [e1, if_pos hjn]
    simp [h7, hple, hmk]
  · have hmk : ¬ (8 - n ≤ 7 - j) := by omega
    rw [if_neg hjn]
    simp [hmk]

/-- Bit `7 - j` of the final shifted byte when the leftover bits spill
into the next source byte: shift of `a` or-ed with the masked, shifted
`b`. -/
theorem shiftedPartialB_testBit (a b p n : Nat) (hb : b < 256)
    (hp1 : 1 ≤ p) (hp8 : p < 8) (hgt : 8 - p < n) (hn8 : n < 8) (j : Nat) (hj : j < 8) :
    (((a <<< p) |||
        ((b &&& highMasks.getD (8 - (n - (8 - p))) 0) >>> (8 - p))) % 256).testBit (7 - j) =
      (if j < n then
        (if p + j < 8 then a.testBit (7 - (p + j)) else b.testBit (15 - (p + j)))
       else false) := by
  have h256 : (256 : Nat) = 2 ^ 8 := by norm_num
  rw [h256, Nat.testBit_mod_two_pow]
  simp only [Nat.testBit_or, Nat.testBit_shiftLeft, Nat.testBit_shiftRight, Nat.testBit_and]
  have h7 : 7 - j < 8 := by omega
  rcases Nat.lt_or_ge (p + j) 8 with hq | hq
  · have hple : p ≤ 7 - j := by omega
    have e1 : 7 - j - p = 7 - (p + j) := by omega
    have hjn : j < n := by omega
    have hbf : b.testBit (8 - p + (7 - j)) = false := by
      apply Nat.testBit_lt_two_pow
      calc b < 2 ^ 8 := hb
        _ ≤ 2 ^ (8 - p + (7 - j)) := Nat.pow_le_pow_right (by norm_num) (by omega)
    rw [e1, hbf, if_pos hjn, if_pos hq]
    simp [h7, hple]
  · have hpgt : ¬ (p ≤ 7 - j) := by omega
    have e2 : 8 - p + (7 - j) = 15 - (p + j) := by omega
    rw [e2, highMasks_testBit (8 - (n - (8 - p))) (15 - (p + j)) (by omega) (by omega)]
    by_cases hjn : j < n
    · have hmk : 8 - (n - (8 - p)) ≤ 15 - (p + j) := by omega
      rw [if_pos hjn, if_neg (Nat.not_lt.mpr hq)]
      simp [h7, hpgt, hmk]
    · have hmk : ¬ (8 - (n - (8 - p)) ≤ 15 - (p + j)) := by omega
      rw [if_neg hjn]
      simp [hpgt, hmk]

/-- Length of the shifted copy loop's output. -/
theorem copyShifted_length (data : List Nat) (p : Nat) :
    ∀ n fromIdx, (copyShifted data fromIdx p n).length = (n + 7) / 8 := by
  intro n
  induction n using Nat.strong_induction_on with
  | _ n ih =>
    intro fromIdx
    unfold copyShifted
    by_cases h8 : 8 ≤ n
    · rw [if_pos h8]
      simp only [List.length_cons]
      rw [ih (n - 8) (by omega) (fromIdx + 1)]
      omega
    · rw [if_neg h8]
      by_cases h0 : n = 0
      · rw [if_pos h0, h0]
        rfl
      · rw [if_neg h0]
        by_cases hcp : n ≤ 8 - p
        · rw [if_pos hcp]
          simp only [List.length_singleton]
          omega
        · rw [if_neg hcp]
          simp only [List.length_singleton]
          omega

/-- Bit-level contents of the shifted copy loop: output bit `j` equals
stream bit `8 * fromIdx + p + j` for `j` below the bit count and 0 beyond
it. -/
theorem copyShifted_bits (data : List Nat) (hdata : ∀ b ∈ data, b < 256)
    (p : Nat) (hp1 : 1 ≤ p) (hp8 : p < 8) :
    ∀ n fromIdx j, j < 8 * ((n + 7) / 8) →
      bufBit (copyShifted data fromIdx p n) j =
        (if j < n then bitAt data (8 * fromIdx + p + j) else false) := by
  intro n
  induction n using Nat.strong_induction_on with
  | _ n ih =>
    intro fromIdx j hj
    unfold copyShifted
    by_cases h8 : 8 ≤ n
    · rw [if_pos h8, bufBit_cons]
      by_cases hj8 : j < 8
      · rw [if_pos hj8,
          shiftedFull_testBit (byteAt data fromIdx) (byteAt data (fromIdx + 1)) p
            (byteAt_lt data hdata (fromIdx + 1)) hp8 j hj8,
          if_pos (by omega : j < n), bitAt_split data fromIdx p j hp8 hj8]
      · rw [if_neg hj8, ih (n - 8) (by omega) (fromIdx + 1) (j - 8) (by omega)]
        have e : 8 * (fromIdx + 1) + p + (j - 8) = 8 * fromIdx + p + j := by omega
        rw [e]
        by_cases hjn : j < n
        · rw [if_pos (by omega : j - 8 < n - 8), if_pos hjn]
        · rw [if_neg (by omega : ¬ (j - 8 < n - 8)), if_neg hjn]
    · by_cases h0 : n = 0
      · exact absurd hj (by omega)
      · have hj8 : j < 8 := by omega
        rw [if_neg h8, if_neg h0]
        by_cases hcp : n ≤ 8 - p
        · rw [if_pos hcp, bufBit_cons, if_pos hj8,
            shiftedPartialA_testBit (byteAt data fromIdx) p n hp8 (by omega) hcp j hj8]
          by_cases hjn : j < n
          · rw [if_pos hjn, if_pos hjn, bitAt_split data fromIdx p j hp8 hj8,
              if_pos (by omega : p + j < 8)]
          · rw [if_neg hjn, if_neg hjn]
        · rw [if_neg hcp, bufBit_cons, if_pos hj8,
            shiftedPartialB_testBit (byteAt data fromIdx) (byteAt data (fromIdx + 1)) p n
              (byteAt_lt data hdata (fromIdx + 1)) hp1 hp8 (by omega) (by omega) j hj8]
          by_cases hjn : j < n
          · rw [if_pos hjn, if_pos hjn, bitAt_split data fromIdx p j hp8 hj8]
          · rw [if_neg hjn, if_neg hjn]

/-- Computed form of a successful `BytesFromBits` call in the
non-wrapping regime. -/
theorem BytesFromBits_eq_of_le (ctx : WKB_Context) (n : Nat)
    (hfit : ctx.currBitOffset + n ≤ ctx.bitLimit)
    (hnw : ctx.currBitOffset + n < ULMOD) :
    BytesFromBits ctx n =
      (some (if ctx.currBitOffset % 8 = 0 then
               copyAligned ctx.data (ctx.currBitOffset / 8) n
             else copyShifted ctx.data (ctx.currBitOffset / 8) (ctx.currBitOffset % 8) n),
       { ctx with currBitOffset := ctx.currBitOffset + n }) := by
  have hsh : ctx.currBitOffset >>> 3 = ctx.currBitOffset / 8 := by
    norm_num [Nat.shiftRight_eq_div_pow]
  have hand : ctx.currBitOffset &&& 7 = ctx.currBitOffset % 8 := by
    have h := Nat.and_pow_two_sub_one_eq_mod ctx.currBitOffset 3
    norm_num at h
    exact h
  unfold BytesFromBits
  rw [Nat.mod_eq_of_lt hnw, if_pos hfit]
  simp only [hsh, hand]
  by_cases hph : ctx.currBitOffset % 8 = 0
  · simp [hph]
  · simp [hph]

/-- Claim C1: for every cursor over a well-formed buffer (bytes < 256,
limit within the resource) and every requested bit count `n` with
`currBitOffset + n ≤ bitLimit`, `BytesFromBits` succeeds, returns a buffer
of exactly `ceil(n/8)` bytes whose bit `j` is stream bit
`currBitOffset + j` for `j < n` (left-justified) and 0 for the trailing
`8*ceil(n/8) - n` positions, and advances `currBitOffset` by exactly `n`.
This holds for every sub-byte phase `currBitOffset % 8` in 0-7 and every
`n`, which subsumes the claim's phase 0-7 by bit count 1-64 comparison
with the manual bit-slice reference `bitAt`.  The hypothesis
`bitLimit < 2^32` is the representability invariant of the C's unsigned
long field; together with the fit hypothesis it keeps the 32-bit bounds
check and offset advance free of wraparound. -/
theorem BytesFromBits_extracts (ctx : WKB_Context) (n : Nat)
    (hdata : ∀ b ∈ ctx.data, b < 256)
    (hres : ctx.bitLimit ≤ 8 * ctx.data.length)
    (hrep : ctx.bitLimit < ULMOD)
    (hfit : ctx.currBitOffset + n ≤ ctx.bitLimit) :
    ∃ buf,
      BytesFromBits ctx n =
        (some buf, { ctx with currBitOffset := ctx.currBitOffset + n }) ∧
      buf.length = (n + 7) / 8 ∧
      ∀ j, j < 8 * buf.length →
        bufBit buf j = (if j < n then bitAt ctx.data (ctx.currBitOffset + j) else false) := by
  by_cases hph : ctx.currBitOffset % 8 = 0
  · refine ⟨copyAligned ctx.data (ctx.currBitOffset / 8) n, ?_,
      copyAligned_length ctx.data n (ctx.currBitOffset / 8), ?_⟩
    · rw [BytesFromBits_eq_of_le ctx n hfit (by omega), if_pos hph]
    · intro j hj
      rw [copyAligned_length] at hj
      rw [copyAligned_bits ctx.data hdata n (ctx.currBitOffset / 8) j hj]
      have e : 8 * (ctx.currBitOffset / 8) + j = ctx.currBitOffset + j := by omega
      rw [e]
  · refine ⟨copyShifted ctx.data (ctx.currBitOffset / 8) (ctx.currBitOffset % 8) n, ?_,
      copyShifted_length ctx.data (ctx.currBitOffset % 8) n (ctx.currBitOffset / 8), ?_⟩
    · rw [BytesFromBits_eq_of_le ctx n hfit (by omega), if_neg hph]
    · intro j hj
      rw [copyShifted_length] at hj
      rw [copyShifted_bits ctx.data hdata (ctx.currBitOffset % 8)
            (by omega) (by omega) n (ctx.currBitOffset / 8) j hj]
      have e : 8 * (ctx.currBitOffset / 8) + ctx.currBitOffset % 8 + j
          = ctx.currBitOffset + j := by omega
      rw [e]

/-- Witness for C1 at a concrete cursor with phase 5 and an 11-bit
request. -/
theorem BytesFromBits_extracts_witness :
    ∃ buf,
      BytesFromBits ⟨[0xAB, 0xCD, 0xEF], 0, 5, 24, true⟩ 11 =
        (some buf, ⟨[0xAB, 0xCD, 0xEF], 0, 5 + 11, 24, true⟩) ∧
      buf.length = (11 + 7) / 8 ∧
      ∀ j, j < 8 * buf.length →
        bufBit buf j = (if j < 11 then bitAt [0xAB, 0xCD, 0xEF] (5 + j) else false) :=
  BytesFromBits_extracts ⟨[0xAB, 0xCD, 0xEF], 0, 5, 24, true⟩ 11
    (by decide) (by decide) (by decide) (by decide)

/-- Counterexample to claim C2 as stated: at `currBitOffset = 2^32 - 8`
with `bitLimit = 2^32 - 1` (representable unsigned longs with
`currBitOffset ≤ bitLimit`; the corresponding resource is a `2^29`-byte
buffer, whose contents are irrelevant to the error and position behavior
the claim describes), a request of 8 bits exceeds the limit, yet the C's
32-bit unsigned sum wraps to 0, the bounds check passes, the extraction
succeeds, and the offset wraps to 0 instead of staying put. -/
theorem BytesFromBits_claim_counterexample :
    (4294967295 : Nat) < 4294967288 + 8 ∧
    (BytesFromBits ⟨[], 0, 4294967288, 4294967295, true⟩ 8).1 ≠ none ∧
    (BytesFromBits ⟨[], 0, 4294967288, 4294967295, true⟩ 8).2.currBitOffset = 0 := by
  refine ⟨by norm_num, by decide, by decide⟩

/-- Claim C2 (amended): for every cursor and every single extraction
request of `n` bits with `currBitOffset + n` exceeding `bitLimit`,
provided the 32-bit unsigned sum `currBitOffset + n` does not wrap (the
regime the counterexample excludes), `BytesFromBits` raises a range error
(modelled by `none`) and returns the cursor state exactly as it was
before the call; the source performs the bounds check before any mutation
of the context. -/
theorem BytesFromBits_range_error (ctx : WKB_Context) (n : Nat)
    (hnw : ctx.currBitOffset + n < ULMOD)
    (h : ctx.bitLimit < ctx.currBitOffset + n) :
    BytesFromBits ctx n = (none, ctx) := by
  unfold BytesFromBits
  rw [Nat.mod_eq_of_lt hnw, if_neg (by omega)]

/-- Witness for C2 at a concrete cursor and request. -/
theorem BytesFromBits_range_error_witness :
    BytesFromBits ⟨[1, 2], 0, 3, 16, true⟩ 14 = (none, ⟨[1, 2], 0, 3, 16, true⟩) :=
  BytesFromBits_range_error ⟨[1, 2], 0, 3, 16, true⟩ 14 (by decide) (by decide)

/-- Running the format scanner over a run of digit characters accumulates
their decimal value (wrapping mod `2^32` like the C's unsigned long
repeat register) and touches nothing else. -/
theorem FormatByteSizeAux_append_digits (ds : List Char)
    (hds : ∀ c ∈ ds, isDigitChar c) :
    ∀ l rep size items,
      FormatByteSizeAux (ds ++ l) rep size items =
        FormatByteSizeAux l
          (ds.foldl (fun a c => (10 * a + digitVal c) % ULMOD) rep) size items := by
  induction ds with
  | nil =>
    intro l rep size items
    rfl
  | cons c ds ih =>
    intro l rep size items
    have hc : isDigitChar c := hds c (by simp)
    simp only [List.cons_append, List.foldl_cons]
    rw [FormatByteSizeAux, if_pos hc]
    exact ih (fun x hx => hds x (by simp [hx])) l _ size items

/-- Accumulating decimal digits never decreases the accumulator. -/
theorem digitFold_le (ds : List Char) :
    ∀ a, a ≤ ds.foldl (fun x c => 10 * x + digitVal c) a := by
  induction ds with
  | nil =>
    intro a
    exact Nat.le_refl a
  | cons c ds ih =>
    intro a
    simp only [List.foldl_cons]
    calc a ≤ 10 * a + digitVal c := by omega
      _ ≤ ds.foldl (fun x c => 10 * x + digitVal c) (10 * a + digitVal c) := ih _

/-- When the exact decimal value of a digit run stays below `2^32`, the
scanner's wrapped fold computes it exactly. -/
theorem digitFold_wrap_eq (ds : List Char) :
    ∀ a, ds.foldl (fun x c => 10 * x + digitVal c) a < ULMOD →
      ds.foldl (fun x c => (10 * x + digitVal c) % ULMOD) a =
        ds.foldl (fun x c => 10 * x + digitVal c) a := by
  induction ds with
  | nil =>
    intro a _
    rfl
  | cons c ds ih =>
    intro a h
    simp only [List.foldl_cons] at h ⊢
    have hle := digitFold_le ds (10 * a + digitVal c)
    rw [Nat.mod_eq_of_lt (by omega)]
    exact ih _ h

/-- Consuming one rendered token in the non-wrapping regime adds exactly
its table byte size and its item contribution, and leaves the scanner
with a reset repeat register. -/
theorem FormatByteSizeAux_token (t : FmtToken) (hcode : t.code ∈ claimCodes)
    (hds : ∀ c ∈ t.repDigits, isDigitChar c) (hraw : tokRepeatRaw t < ULMOD)
    (l : List Char) (size items : Nat)
    (hsz : size + tokSize t < ULMOD) (hit : items + tokItems t < ULMOD) :
    FormatByteSizeAux (renderToken t ++ l) 0 size items =
      FormatByteSizeAux l 0 (size + tokSize t) (items + tokItems t) := by
  obtain ⟨ds, c⟩ := t
  dsimp only [renderToken] at *
  unfold tokRepeatRaw at hraw
  dsimp only at hraw
  rw [List.append_assoc, FormatByteSizeAux_append_digits ds hds ([c] ++ l) 0 size items,
    digitFold_wrap_eq ds 0 hraw]
  simp only [tokSize, tokItems, tokRepeat, tokRepeatRaw] at hsz hit ⊢
  simp only [claimCodes, List.mem_cons, List.not_mem_nil, or_false] at hcode
  generalize hR : ds.foldl (fun a c => 10 * a + digitVal c) 0 = R at hsz hit ⊢
  by_cases hR0 : R = 0 <;>
    rcases hcode with h | h | h | h | h | h | h | h | h | h | h | h | h | h | h | h | h | h <;>
      subst h <;>
      simp +decide [FormatByteSizeAux, codeByteSize, ULMOD, hR0] at hsz hit ⊢ <;>
      repeat rw [Nat.mod_eq_of_lt (by omega)]

/-- Scanning a whole rendered format in the non-wrapping regime
accumulates the per-token sizes and item counts. -/
theorem renderFormat_size (ts : List FmtToken)
    (h : ∀ t ∈ ts, t.code ∈ claimCodes ∧ (∀ c ∈ t.repDigits, isDigitChar c) ∧
      tokRepeatRaw t < ULMOD) :
    ∀ size items, size + (ts.map tokSize).sum < ULMOD →
      items + (ts.map tokItems).sum < ULMOD →
      FormatByteSizeAux (renderFormat ts) 0 size items =
        (size + (ts.map tokSize).sum, items + (ts.map tokItems).sum) := by
  induction ts with
  | nil =>
    intro size items _ _
    simp [renderFormat, FormatByteSizeAux]
  | cons t ts ih =>
    intro size items hsz hit
    have ht := h t (by simp)
    have hts : ∀ t' ∈ ts, t'.code ∈ claimCodes ∧ (∀ c ∈ t'.repDigits, isDigitChar c) ∧
        tokRepeatRaw t' < ULMOD :=
      fun t' ht' => h t' (by simp [ht'])
    simp only [List.map_cons, List.sum_cons] at hsz hit
    simp only [renderFormat, List.map_cons, List.flatten_cons]
    rw [FormatByteSizeAux_token t ht.1 ht.2.1 ht.2.2 _ size items (by omega) (by omega)]
    have ih' := ih hts (size + tokSize t) (items + tokItems t) (by omega) (by omega)
    simp only [renderFormat] at ih'
    rw [ih']
    simp only [List.map_cons, List.sum_cons, Prod.mk.injEq]
    omega

/-- Counterexample to claim C3 as stated: the single-token format
8589934593B has repeat count `2^33 + 1` and code B, so the claim's table
demands byte size and item count `8589934593`; but the C's 32-bit
unsigned repeat register wraps that digit run to 1, and the scanner
returns byte size 1 and item count 1. -/
theorem FormatByteSize_claim_counterexample :
    FormatByteSize
        (renderFormat [⟨['8', '5', '8', '9', '9', '3', '4', '5', '9', '3'], 'B'⟩]) =
      (1, 1) ∧
    ([(⟨['8', '5', '8', '9', '9', '3', '4', '5', '9', '3'], 'B'⟩ : FmtToken)].map
        tokSize).sum = 8589934593 ∧
    (1 : Nat) ≠ 8589934593 := by
  refine ⟨by decide, by decide, by decide⟩

/-- Claim C3 (amended): for every format string assembled from tokens
over the claim's code set, provided no 32-bit wraparound occurs (each
token's digit-run value and the total byte size and item count stay below
`2^32`, the regime the counterexample excludes), the standalone size
computation returns the sum of the table byte size (1 for B,b,c,p,s,x; 2
for H,h; 3 for T,t; 4 for I,i,L,l,f; 8 for Q,q,d) times each token's
repeat count (defaulting to 1), and an item count adding the repeat count
for numeric codes, exactly 1 for p and s, and 0 for x; in particular the
format string 2H3x1s yields byte size 8 and item count 3. -/
theorem FormatByteSize_spec (ts : List FmtToken)
    (h : ∀ t ∈ ts, t.code ∈ claimCodes ∧ (∀ c ∈ t.repDigits, isDigitChar c) ∧
      tokRepeatRaw t < ULMOD)
    (hsz : (ts.map tokSize).sum < ULMOD)
    (hit : (ts.map tokItems).sum < ULMOD) :
    FormatByteSize (renderFormat ts) = ((ts.map tokSize).sum, (ts.map tokItems).sum) ∧
    FormatByteSize "2H3x1s".toList = (8, 3) := by
  constructor
  · have hmain := renderFormat_size ts h 0 0 (by omega) (by omega)
    simpa [FormatByteSize] using hmain
  · decide

/-- Witness for C3 at the concrete token list of the format 2H3x1s. -/
theorem FormatByteSize_spec_witness :
    FormatByteSize (renderFormat [⟨['2'], 'H'⟩, ⟨['3'], 'x'⟩, ⟨['1'], 's'⟩]) =
      (([⟨['2'], 'H'⟩, ⟨['3'], 'x'⟩, ⟨['1'], 's'⟩].map tokSize).sum,
       ([⟨['2'], 'H'⟩, ⟨['3'], 'x'⟩, ⟨['1'], 's'⟩].map tokItems).sum) ∧
    FormatByteSize "2H3x1s".toList = (8, 3) :=
  FormatByteSize_spec [⟨['2'], 'H'⟩, ⟨['3'], 'x'⟩, ⟨['1'], 's'⟩]
    (by decide) (by decide) (by decide)

/-- Disjoint bitwise or is addition: or-ing a multiple of a power of two
with a value below that power adds them. -/
theorem lor_eq_add (x y m : Nat) (hm : ∃ k, m = 2 ^ k) (hx : x % m = 0) (hy : y < m) :
    x ||| y = x + y := by
  obtain ⟨k, rfl⟩ := hm
  obtain ⟨q, rfl⟩ := Nat.dvd_of_mod_eq_zero hx
  exact (Nat.mul_add_lt_is_or hy q).symm

/-- Commuted version of `lor_eq_add` for least-significant-first
assembly. -/
theorem lor_eq_add_comm (x y m : Nat) (hm : ∃ k, m = 2 ^ k) (hx : x < m) (hy : y % m = 0) :
    x ||| y = x + y := by
  rw [Nat.lor_comm, lor_eq_add y x m hm hy hx, Nat.add_comm]

/-- Big-endian 32-bit assembly by shifts and sequential ors equals the
weighted byte sum. -/
theorem four_bytes_be (a b c d : Nat) (hb : b < 256) (hc : c < 256) (hd : d < 256) :
    ((a <<< 24) ||| (b <<< 16)) ||| (c <<< 8) ||| d
      = a * 16777216 + b * 65536 + c * 256 + d := by
  rw [Nat.shiftLeft_eq, Nat.shiftLeft_eq, Nat.shiftLeft_eq,
    show (2 : Nat) ^ 24 = 16777216 by norm_num,
    show (2 : Nat) ^ 16 = 65536 by norm_num,
    show (2 : Nat) ^ 8 = 256 by norm_num]
  rw [lor_eq_add (a * 16777216) (b * 65536) 16777216 ⟨24, by norm_num⟩
      (by omega) (by omega)]
  rw [lor_eq_add (a * 16777216 + b * 65536) (c * 256) 65536 ⟨16, by norm_num⟩
      (by omega) (by omega)]
  rw [lor_eq_add (a * 16777216 + b * 65536 + c * 256) d 256 ⟨8, by norm_num⟩
      (by omega) (by omega)]

/-- Little-endian 32-bit assembly by shifts and sequential ors equals the
weighted byte sum. -/
theorem four_bytes_le (a b c d : Nat) (ha : a < 256) (hb : b < 256) (hc : c < 256) :
    ((a ||| (b <<< 8)) ||| (c <<< 16)) ||| (d <<< 24)
      = a + b * 256 + c * 65536 + d * 16777216 := by
  rw [Nat.shiftLeft_eq, Nat.shiftLeft_eq, Nat.shiftLeft_eq,
    show (2 : Nat) ^ 24 = 16777216 by norm_num,
    show (2 : Nat) ^ 16 = 65536 by norm_num,
    show (2 : Nat) ^ 8 = 256 by norm_num]
  rw [lor_eq_add_comm a (b * 256) 256 ⟨8, by norm_num⟩ ha (by omega)]
  rw [lor_eq_add_comm (a + b * 256) (c * 65536) 65536 ⟨16, by norm_num⟩
      (by omega) (by omega)]
  rw [lor_eq_add_comm (a + b * 256 + c * 65536) (d * 16777216) 16777216 ⟨24, by norm_num⟩
      (by omega) (by omega)]

/-- Claim C4: for every 8-byte input, the 64-bit decode of `FormatProcess`
combines the two 32-bit halves, ordered per the requested endianness, as
`(high << 32) | low`, and for a signed type code with bit 31 of the high
half set (equivalently, a combined value of at least `2^63`) corrects the
result by subtracting `2^64`, so that the decode equals the big-endian
(respectively byte-reversed) unsigned or two's-complement value of the
input; in particular big-endian bytes FF..FF decode as signed to -1 and
bytes 00..01 decode to 1. -/
theorem FormatProcess_Q_spec (b0 b1 b2 b3 b4 b5 b6 b7 : Nat)
    (h0 : b0 < 256) (h1 : b1 < 256) (h2 : b2 < 256) (h3 : b3 < 256)
    (h4 : b4 < 256) (h5 : b5 < 256) (h6 : b6 < 256) (h7 : b7 < 256) :
    (FormatProcess_Q [b0, b1, b2, b3, b4, b5, b6, b7] true false =
      (beBytesVal [b0, b1, b2, b3, b4, b5, b6, b7] : Int)) ∧
    (FormatProcess_Q [b0, b1, b2, b3, b4, b5, b6, b7] true true =
      (if beBytesVal [b0, b1, b2, b3, b4, b5, b6, b7] < 2 ^ 63 then
        (beBytesVal [b0, b1, b2, b3, b4, b5, b6, b7] : Int)
       else (beBytesVal [b0, b1, b2, b3, b4, b5, b6, b7] : Int) - 2 ^ 64)) ∧
    (FormatProcess_Q [b0, b1, b2, b3, b4, b5, b6, b7] false false =
      (beBytesVal [b7, b6, b5, b4, b3, b2, b1, b0] : Int)) ∧
    (FormatProcess_Q [b0, b1, b2, b3, b4, b5, b6, b7] false true =
      (if beBytesVal [b7, b6, b5, b4, b3, b2, b1, b0] < 2 ^ 63 then
        (beBytesVal [b7, b6, b5, b4, b3, b2, b1, b0] : Int)
       else (beBytesVal [b7, b6, b5, b4, b3, b2, b1, b0] : Int) - 2 ^ 64)) ∧
    FormatProcess_Q [255, 255, 255, 255, 255, 255, 255, 255] true true = -1 ∧
    FormatProcess_Q [0, 0, 0, 0, 0, 0, 0, 1] true true = 1 := by
  refine ⟨?_, ?_, ?_, ?_, by decide, by decide⟩ <;>
      simp only [FormatProcess_Q, byteAt, List.getD_cons_zero, List.getD_cons_succ,
        beBytesVal, List.foldl_cons, List.foldl_nil, if_true, true_and,
        Bool.false_eq_true, false_and, if_false]
  · rw [four_bytes_be b0 b1 b2 b3 h1 h2 h3, four_bytes_be b4 b5 b6 b7 h5 h6 h7]
    push_cast
    omega
  · rw [four_bytes_be b0 b1 b2 b3 h1 h2 h3, four_bytes_be b4 b5 b6 b7 h5 h6 h7]
    split_ifs <;> (push_cast; omega)
  · rw [four_bytes_le b4 b5 b6 b7 h4 h5 h6, four_bytes_le b0 b1 b2 b3 h0 h1 h2]
    push_cast
    omega
  · rw [four_bytes_le b4 b5 b6 b7 h4 h5 h6, four_bytes_le b0 b1 b2 b3 h0 h1 h2]
    split_ifs <;> (push_cast; omega)

/-- Witness for C4 at a concrete byte tuple. -/
theorem FormatProcess_Q_spec_witness :
    (FormatProcess_Q [18, 52, 86, 120, 154, 188, 222, 240] true false =
      (beBytesVal [18, 52, 86, 120, 154, 188, 222, 240] : Int)) ∧
    (FormatProcess_Q [18, 52, 86, 120, 154, 188, 222, 240] true true =
      (if beBytesVal [18, 52, 86, 120, 154, 188, 222, 240] < 2 ^ 63 then
        (beBytesVal [18, 52, 86, 120, 154, 188, 222, 240] : Int)
       else (beBytesVal [18, 52, 86, 120, 154, 188, 222, 240] : Int) - 2 ^ 64)) ∧
    (FormatProcess_Q [18, 52, 86, 120, 154, 188, 222, 240] false false =
      (beBytesVal [240, 222, 188, 154, 120, 86, 52, 18] : Int)) ∧
    (FormatProcess_Q [18, 52, 86, 120, 154, 188, 222, 240] false true =
      (if beBytesVal [240, 222, 188, 154, 120, 86, 52, 18] < 2 ^ 63 then
        (beBytesVal [240, 222, 188, 154, 120, 86, 52, 18] : Int)
       else (beBytesVal [240, 222, 188, 154, 120, 86, 52, 18] : Int) - 2 ^ 64)) ∧
    FormatProcess_Q [255, 255, 255, 255, 255, 255, 255, 255] true true = -1 ∧
    FormatProcess_Q [0, 0, 0, 0, 0, 0, 0, 1] true true = 1 :=
  FormatProcess_Q_spec 18 52 86 120 154 188 222 240
    (by decide) (by decide) (by decide) (by decide)
    (by decide) (by decide) (by decide) (by decide)

/-- Reinterpretation is the identity on in-range values. -/
theorem toSigned32_eq (v : Int) (hv1 : -(2 ^ 31) ≤ v) (hv2 : v < 2 ^ 31) :
    toSigned32 v = v := by
  unfold toSigned32
  omega

/-- Counterexample to claim C5 as stated: for the cursor with
`currBitOffset = 2^32 - 8` and `bitLimit = 2^32 - 1` (all representable
unsigned longs, and `currBitOffset ≤ bitLimit`), the relative seek by +16
resolves to `2^32 + 8`, which violates `0 ≤ position < limit`, yet the
32-bit signed wraparound of the source makes the call succeed and set the
offset to 8 instead of raising. -/
theorem wkb_SetOffset_claim_counterexample :
    (wkb_SetOffset ⟨[], 0, 4294967288, 4294967295, true⟩ 16 true false =
      some ⟨[], 0, 8, 4294967295, true⟩) ∧
    ¬ ((16 : Int) + 4294967288 < 4294967295) := by
  constructor
  · decide
  · norm_num

/-- Claim C5 (amended): `wkb_SetOffset` resolves a relative offset against
`currBitOffset` and an absolute offset against `origBitStart`; provided
the cursor's offsets and limit lie below `2^31` and the requested offset
fits a 32-bit signed long (so no 32-bit wraparound occurs, the regime the
counterexample excludes), a resolved position outside `0 ≤ r < bitLimit`
with `allowExceedLimit` false raises a range error with the cursor
untouched (the model returns `none` and the C raises before writing), and
otherwise `currBitOffset` becomes the resolved position. -/
theorem wkb_SetOffset_spec (ctx : WKB_Context) (off r : Int) (relative : Bool)
    (hr : r = off +
      (if relative then (ctx.currBitOffset : Int) else (ctx.origBitStart : Int)))
    (hcurr : ctx.currBitOffset < 2 ^ 31) (horig : ctx.origBitStart < 2 ^ 31)
    (hlim : ctx.bitLimit ≤ 2 ^ 31)
    (hoff1 : -(2 ^ 31) ≤ off) (hoff2 : off < 2 ^ 31) :
    (¬ (0 ≤ r ∧ r < (ctx.bitLimit : Int)) →
      wkb_SetOffset ctx off relative false = none) ∧
    ((0 ≤ r ∧ r < (ctx.bitLimit : Int)) →
      wkb_SetOffset ctx off relative false =
        some { ctx with currBitOffset := r.toNat }) := by
  subst hr
  cases relative <;>
    simp only [if_true, if_false, Bool.false_eq_true, Bool.true_eq_false] <;>
    unfold wkb_SetOffset toSigned32 ULMOD <;>
    simp only [if_true, if_false, Bool.false_eq_true, Bool.true_eq_false, false_or] <;>
    constructor <;> intro hcond
  · rw [if_neg]
    omega
  · rw [if_pos (by omega)]
    have he : ((((off + (ctx.origBitStart : Int) + 2 ^ 31) % 2 ^ 32 - 2 ^ 31) %
        (2 ^ 32 : Nat)).toNat) = (off + (ctx.origBitStart : Int)).toNat := by
      omega
    rw [he]
  · rw [if_neg]
    omega
  · rw [if_pos (by omega)]
    have he : ((((off + (ctx.currBitOffset : Int) + 2 ^ 31) % 2 ^ 32 - 2 ^ 31) %
        (2 ^ 32 : Nat)).toNat) = (off + (ctx.currBitOffset : Int)).toNat := by
      omega
    rw [he]

/-- Witness for the amended C5 at a concrete in-range relative seek. -/
theorem wkb_SetOffset_spec_witness :
    (¬ (0 ≤ (60 : Int) ∧ (60 : Int) < (800 : Nat)) →
      wkb_SetOffset ⟨[], 0, 100, 800, true⟩ (-40) true false = none) ∧
    ((0 ≤ (60 : Int) ∧ (60 : Int) < (800 : Nat)) →
      wkb_SetOffset ⟨[], 0, 100, 800, true⟩ (-40) true false =
        some { WKB_Context.mk [] 0 100 800 true with currBitOffset := (60 : Int).toNat }) :=
  wkb_SetOffset_spec ⟨[], 0, 100, 800, true⟩ (-40) 60 true (by norm_num)
    (by decide) (by decide) (by decide) (by decide) (by decide)

/-- Counterexample to claim C6 as stated: for the cursor with
`bitLimit = 2^31 + 100` and `currBitOffset = 0`, skipping by
`-(2^31 - 50)` rewinds before position 0, but the 32-bit wraparound lands
at `2^31 + 50`, which is inside `[0, bitLimit]`, so the source keeps it
instead of clamping to 0. -/
theorem wkb_Skip_claim_counterexample :
    (wkb_Skip ⟨[], 0, 0, 2147483748, true⟩ (-2147483598) =
      ⟨[], 0, 2147483698, 2147483748, true⟩) ∧
    ((0 : Int) + (-2147483598) < 0) ∧ (2147483698 : Nat) ≠ 0 := by
  refine ⟨by decide, by norm_num, by norm_num⟩

/-- Claim C6 (amended): `wkb_Skip` never raises (the model is a total
function, as is the C, which has no error path) and always leaves
`currBitOffset` in `[0, bitLimit]`; provided `currBitOffset ≤ bitLimit`,
`bitLimit < 2^31` and the skip amount fits a 32-bit signed long (so the
32-bit wraparound cannot land inside the window, the regime the
counterexample excludes), a forward overshoot past the limit is clamped
to the limit, a rewind before position 0 is clamped to 0, and an in-range
skip moves the offset exactly. -/
theorem wkb_Skip_spec (ctx : WKB_Context) (skip : Int)
    (hcurr : ctx.currBitOffset ≤ ctx.bitLimit) (hlim : ctx.bitLimit < 2 ^ 31)
    (hs1 : -(2 ^ 31) ≤ skip) (hs2 : skip < 2 ^ 31) :
    (wkb_Skip ctx skip).currBitOffset ≤ ctx.bitLimit ∧
    ((ctx.bitLimit : Int) < (ctx.currBitOffset : Int) + skip →
      (wkb_Skip ctx skip).currBitOffset = ctx.bitLimit) ∧
    ((ctx.currBitOffset : Int) + skip < 0 →
      (wkb_Skip ctx skip).currBitOffset = 0) ∧
    (0 ≤ (ctx.currBitOffset : Int) + skip →
      (ctx.currBitOffset : Int) + skip ≤ (ctx.bitLimit : Int) →
      ((wkb_Skip ctx skip).currBitOffset : Int) = (ctx.currBitOffset : Int) + skip) := by
  unfold wkb_Skip ULMOD
  refine ⟨?_, ?_, ?_, ?_⟩ <;> (intros; dsimp only; split_ifs <;> omega)

/-- Witness for the amended C6 at a concrete in-range rewind. -/
theorem wkb_Skip_spec_witness :
    (wkb_Skip ⟨[], 0, 10, 100, true⟩ (-4)).currBitOffset ≤ 100 ∧
    ((100 : Int) < (10 : Nat) + (-4 : Int) →
      (wkb_Skip ⟨[], 0, 10, 100, true⟩ (-4)).currBitOffset = 100) ∧
    (((10 : Nat) : Int) + (-4 : Int) < 0 →
      (wkb_Skip ⟨[], 0, 10, 100, true⟩ (-4)).currBitOffset = 0) ∧
    (0 ≤ ((10 : Nat) : Int) + (-4 : Int) →
      ((10 : Nat) : Int) + (-4 : Int) ≤ ((100 : Nat) : Int) →
      ((wkb_Skip ⟨[], 0, 10, 100, true⟩ (-4)).currBitOffset : Int) =
        ((10 : Nat) : Int) + (-4 : Int)) :=
  wkb_Skip_spec ⟨[], 0, 10, 100, true⟩ (-4)
    (by decide) (by decide) (by decide) (by decide)

/-- Running the unpackRest loop for `k` groups of `s` bits each succeeds
when they all fit before the limit, returns `k` groups, and advances the
offset by exactly `k * s` bits. -/
theorem unpackRestLoop_spec (s : Nat) :
    ∀ k ctx, ctx.bitLimit < ULMOD → ctx.currBitOffset + k * s ≤ ctx.bitLimit →
      ∃ gs, unpackRestLoop s k ctx =
        (some gs, { ctx with currBitOffset := ctx.currBitOffset + k * s }) ∧
        gs.length = k := by
  intro k
  induction k with
  | zero =>
    intro ctx _ hk
    refine ⟨[], ?_, rfl⟩
    simp [unpackRestLoop]
  | succ k ih =>
    intro ctx hlim hk
    have hfit : ctx.currBitOffset + s ≤ ctx.bitLimit := by
      have : s ≤ (k + 1) * s := by
        calc s = 1 * s := by omega
          _ ≤ (k + 1) * s := Nat.mul_le_mul_right s (by omega)
      omega
    have hstep := BytesFromBits_eq_of_le ctx s hfit (by omega)
    have hk' : ({ ctx with currBitOffset := ctx.currBitOffset + s } :
        WKB_Context).currBitOffset + k * s ≤
        ({ ctx with currBitOffset := ctx.currBitOffset + s } : WKB_Context).bitLimit := by
      dsimp only
      have : (k + 1) * s = k * s + s := by ring
      omega
    obtain ⟨gs, hgs, hlen⟩ := ih { ctx with currBitOffset := ctx.currBitOffset + s }
      (by dsimp only; omega) hk'
    dsimp only at hgs
    refine ⟨(if ctx.currBitOffset % 8 = 0 then
              copyAligned ctx.data (ctx.currBitOffset / 8) s
            else copyShifted ctx.data (ctx.currBitOffset / 8) (ctx.currBitOffset % 8) s)
        :: gs, ?_, by simp [hlen]⟩
    show unpackRestLoop s (k + 1) ctx = _
    rw [unpackRestLoop, hstep]
    dsimp only
    rw [hgs]
    have he : ctx.currBitOffset + s + k * s = ctx.currBitOffset + (k + 1) * s := by ring
    rw [he]

/-- Claim C7: for every cursor (with the representability invariant
`bitLimit < 2^32` and the cursor invariant `currBitOffset ≤ bitLimit`)
and every format whose bit size — the 32-bit value the C computes, i.e.
the wrapped `FormatByteSize << 3` — is nonzero, `wkb_UnpackRest` with
`strict` raises an error (ValueError in the source, modelled by `none`
with the context untouched) whenever the remaining bit count is not an
exact multiple of one format repetition's bit size, and otherwise (in
particular always when `strict` is false) decodes exactly
`remainingBits / formatBitSize` full repetitions, advancing the cursor by
that many repetitions and ignoring the leftover bits.  (The nonzero
hypothesis is stated on the wrapped bit size, so it excludes exactly the
formats, such as 536870912Q, on which the C computes `% 0` and `/ 0`,
which are undefined behavior.) -/
theorem wkb_UnpackRest_spec (ctx : WKB_Context) (fmt : List Char) (strict : Bool)
    (hsize : 0 < ((FormatByteSize fmt).1 <<< 3) % ULMOD)
    (hlim : ctx.bitLimit < ULMOD)
    (hcl : ctx.currBitOffset ≤ ctx.bitLimit) :
    ((strict ∧ (ctx.bitLimit - ctx.currBitOffset) %
        (((FormatByteSize fmt).1 <<< 3) % ULMOD) ≠ 0) →
      wkb_UnpackRest ctx fmt strict = (none, ctx)) ∧
    (¬ (strict ∧ (ctx.bitLimit - ctx.currBitOffset) %
        (((FormatByteSize fmt).1 <<< 3) % ULMOD) ≠ 0) →
      ∃ gs, wkb_UnpackRest ctx fmt strict =
        (some gs, { ctx with currBitOffset :=
          ctx.currBitOffset + gs.length * (((FormatByteSize fmt).1 <<< 3) % ULMOD) }) ∧
        gs.length =
          (ctx.bitLimit - ctx.currBitOffset) /
            (((FormatByteSize fmt).1 <<< 3) % ULMOD)) := by
  constructor
  · intro hcond
    unfold wkb_UnpackRest
    rw [if_pos hcond]
  · intro hcond
    unfold wkb_UnpackRest
    rw [if_neg hcond]
    have hdm := Nat.div_mul_le_self (ctx.bitLimit - ctx.currBitOffset)
      (((FormatByteSize fmt).1 <<< 3) % ULMOD)
    obtain ⟨gs, hgs, hlen⟩ := unpackRestLoop_spec (((FormatByteSize fmt).1 <<< 3) % ULMOD)
      ((ctx.bitLimit - ctx.currBitOffset) / (((FormatByteSize fmt).1 <<< 3) % ULMOD)) ctx
      hlim (by omega)
    exact ⟨gs, by rw [hgs, hlen], hlen⟩

/-- Witness for C7: three bytes remain, the format H spans 16 bits, so the
strict check fires for a 24-bit remainder in strict mode, and exactly one
repetition is decoded otherwise. -/
theorem wkb_UnpackRest_spec_witness :
    ((true ∧ ((24 : Nat) - 0) % (((FormatByteSize ['H']).1 <<< 3) % ULMOD) ≠ 0) →
      wkb_UnpackRest ⟨[1, 2, 3], 0, 0, 24, true⟩ ['H'] true =
        (none, ⟨[1, 2, 3], 0, 0, 24, true⟩)) ∧
    (¬ (true ∧ ((24 : Nat) - 0) % (((FormatByteSize ['H']).1 <<< 3) % ULMOD) ≠ 0) →
      ∃ gs, wkb_UnpackRest ⟨[1, 2, 3], 0, 0, 24, true⟩ ['H'] true =
        (some gs, { WKB_Context.mk [1, 2, 3] 0 0 24 true with currBitOffset :=
          0 + gs.length * (((FormatByteSize ['H']).1 <<< 3) % ULMOD) }) ∧
        gs.length = ((24 : Nat) - 0) / (((FormatByteSize ['H']).1 <<< 3) % ULMOD)) :=
  wkb_UnpackRest_spec ⟨[1, 2, 3], 0, 0, 24, true⟩ ['H'] true
    (by decide) (by decide) (by decide)

/-- Claim C8: branching via `fwkb_SubWalkerSetup` increments the shared
resource's reference count by exactly one and leaves the file open;
destroying a cursor via `FreeContext` decrements the count by exactly one
and closes the file exactly when the count reaches zero; and a branch
followed by destroying the branch restores the shared state exactly, so
the parent's reference count is unaffected (the parent context itself is
only read by the C code, which the model mirrors by never producing a
modified parent).  The hypotheses keep the 32-bit reference counter away
from wraparound. -/
theorem fwkb_refcount_spec (ctx : FWKB_Client) (sh : FWKB_Shared)
    (bitOffset : Nat) (relative anchor : Bool) (newPyLimit : Option Nat)
    (h1 : 1 ≤ sh.refCount) (h2 : sh.refCount + 1 < ULMOD) :
    ((fwkb_SubWalkerSetup ctx sh bitOffset relative anchor newPyLimit).2.refCount =
      sh.refCount + 1) ∧
    ((fwkb_SubWalkerSetup ctx sh bitOffset relative anchor newPyLimit).2.fileOpen =
      sh.fileOpen) ∧
    ((FreeContext sh).refCount = sh.refCount - 1) ∧
    (sh.fileOpen = true → ((FreeContext sh).fileOpen = false ↔ sh.refCount = 1)) ∧
    (FreeContext ((fwkb_SubWalkerSetup ctx sh bitOffset relative anchor newPyLimit).2) =
      sh) := by
  obtain ⟨r, fo⟩ := sh
  unfold ULMOD at h2
  unfold fwkb_SubWalkerSetup FreeContext ULMOD
  dsimp only at h1 h2 ⊢
  refine ⟨by omega, rfl, by omega, ?_, ?_⟩
  · intro hfo
    rw [hfo]
    split_ifs with h <;> simp <;> omega
  · have hc : ((r + 1) % 2 ^ 32 + (2 ^ 32 - 1)) % 2 ^ 32 = r := by omega
    rw [hc, if_neg (by omega : ¬ r = 0)]

/-- Witness for C8 at a concrete parent cursor and shared state with two
live references. -/
theorem fwkb_refcount_spec_witness :
    ((fwkb_SubWalkerSetup ⟨800, 0, 0, 800, true⟩ ⟨2, true⟩ 0 false false none).2.refCount =
      2 + 1) ∧
    ((fwkb_SubWalkerSetup ⟨800, 0, 0, 800, true⟩ ⟨2, true⟩ 0 false false none).2.fileOpen =
      true) ∧
    ((FreeContext ⟨2, true⟩).refCount = 2 - 1) ∧
    ((true : Bool) = true → ((FreeContext ⟨2, true⟩).fileOpen = false ↔ (2 : Nat) = 1)) ∧
    (FreeContext ((fwkb_SubWalkerSetup ⟨800, 0, 0, 800, true⟩ ⟨2, true⟩
        0 false false none).2) = ⟨2, true⟩) :=
  fwkb_refcount_spec ⟨800, 0, 0, 800, true⟩ ⟨2, true⟩ 0 false false none
    (by decide) (by decide)

/-- A byte string without NUL bytes has its full length reported by
`strlen`. -/
theorem strlenBytes_of_no_zero (s : List Nat) (hz : ∀ b ∈ s, b ≠ 0) :
    strlenBytes s = s.length := by
  unfold strlenBytes
  induction s with
  | nil => rfl
  | cons a l ih =>
    have ha : (a != 0) = true := by
      simpa using hz a (by simp)
    rw [List.takeWhile_cons, if_pos ha, List.length_cons, List.length_cons,
      ih (fun b hb => hz b (by simp [hb]))]

/-- Counterexample to claim C9 as stated: the byte string `[97, 0]` has
length 2 ≤ 255 and fits a Pascal field of declared capacity 4, yet the
source measures it with `strlen`, stores length 1, and decoding returns
`[97]`, not the original string. -/
theorem ut_Pack_pField_claim_counterexample :
    ([97, 0] : List Nat).length ≤ 255 ∧
    ([97, 0] : List Nat).length ≤ 4 - 1 ∧
    FormatProcess_pField (ut_Pack_pField [97, 0] 4) ≠ [97, 0] := by
  decide

/-- Claim C9 (amended): encoding a byte string into a Pascal-string field
of declared capacity `rep ≥ 1` always yields exactly `rep` bytes whose
length prefix is capped at 255 and is followed by at most `rep - 1` data
bytes (truncating deterministically); and for every string of length
`L ≤ 255` that fits the capacity AND contains no NUL byte (the regime the
`strlen`-based counterexample excludes), decoding the encoded field
returns the original string. -/
theorem ut_Pack_pField_spec (s : List Nat) (rep : Nat) (hrep : 1 ≤ rep) :
    (ut_Pack_pField s rep).length = rep ∧
    byteAt (ut_Pack_pField s rep) 0 ≤ 255 ∧
    ((∀ b ∈ s, b ≠ 0) → s.length ≤ 255 → s.length ≤ rep - 1 →
      FormatProcess_pField (ut_Pack_pField s rep) = s) := by
  have hsl : strlenBytes s ≤ s.length := by
    unfold strlenBytes
    exact (List.takeWhile_sublist _).length_le
  refine ⟨?_, ?_, ?_⟩
  · unfold ut_Pack_pField
    dsimp only
    simp only [List.length_cons, List.length_append, List.length_take,
      List.length_replicate]
    split_ifs <;> omega
  · unfold ut_Pack_pField byteAt
    dsimp only
    simp only [List.getD_cons_zero]
    split_ifs <;> omega
  · intro hz h255 hfit
    have hL : strlenBytes s = s.length := strlenBytes_of_no_zero s hz
    unfold FormatProcess_pField ut_Pack_pField
    dsimp only
    rw [hL, if_neg (by omega : ¬ rep ≤ s.length), if_neg (by omega : ¬ 255 < s.length)]
    dsimp only [byteAt]
    simp only [List.getD_cons_zero, List.drop_succ_cons, List.drop_zero]
    rw [List.take_length, List.take_left]

/-- Witness for the amended C9: the NUL-free string `[104, 105]` encoded
into a capacity-5 field decodes back to itself. -/
theorem ut_Pack_pField_spec_witness :
    (ut_Pack_pField [104, 105] 5).length = 5 ∧
    byteAt (ut_Pack_pField [104, 105] 5) 0 ≤ 255 ∧
    ((∀ b ∈ ([104, 105] : List Nat), b ≠ 0) → ([104, 105] : List Nat).length ≤ 255 →
      ([104, 105] : List Nat).length ≤ 5 - 1 →
      FormatProcess_pField (ut_Pack_pField [104, 105] 5) = [104, 105]) :=
  ut_Pack_pField_spec [104, 105] 5 (by decide)

/-- Claim C10: requesting zero bits via `wkb_UnpackBits` returns an empty
byte string, performs no range check (the theorem has no hypothesis at all,
so it covers cursors at or past their limit), and leaves the cursor state,
in particular `currBitOffset` and hence the phase, unchanged. -/
theorem wkb_UnpackBits_zero (ctx : WKB_Context) :
    wkb_UnpackBits ctx 0 = (some [], ctx) := by
  unfold wkb_UnpackBits
  simp
